import Mathlib

/-!
Shallow embedding of the proximity clustering engine (`src/day_08/solution.py`).

Python values are modelled as follows: 3-tuples of `int` become `Pos = Int × Int × Int`;
the mutable `dict[Pos, int]` of circuit labels becomes an association list
`Circuits = List (Pos × Nat)` (insertion-ordered, keys distinct), with `clookup`
modelling `circuits[p]` (a missing key, Python's `KeyError`, yields `none`);
fallible code (`KeyError`, `ValueError`, failed `assert`, `functools.reduce` on an
empty sequence) returns `Option`; `sorted(...)`, Python's stable sort, becomes
`List.mergeSort`; `set(...)` becomes `List.toFinset` and `len(set(...))` its card;
`collections.Counter(vs).values()` becomes the counts of the distinct elements
of `vs`; strings become `List Char`.
-/

/-- `Pos = tuple[int, int, int]`. -/
abbrev Pos := Int × Int × Int

/-- `get_distance`: squared Euclidean distance between two 3D positions. -/
def get_distance (a b : Pos) : Int :=
  (a.1 - b.1) ^ 2 + (a.2.1 - b.2.1) ^ 2 + (a.2.2 - b.2.2) ^ 2

/-- `itertools.combinations(l, 2)`: all pairs of elements at positions `i < j`,
generated in lexicographic order on `(i, j)`. -/
def combinations2 {α : Type} : List α → List (α × α)
  | [] => []
  | x :: xs => (xs.map (fun y => (x, y))) ++ combinations2 xs

/-- Weight of an edge: squared distance between its two endpoints. -/
def edgeWeight (e : Pos × Pos) : Int := get_distance e.1 e.2

/-- The comparison key used by `sort_by_distance` (`key=lambda x: get_distance(*x)`). -/
def distLE (x y : Pos × Pos) : Bool := decide (edgeWeight x ≤ edgeWeight y)

/-- `sort_by_distance`: all position pairs, stably sorted by squared distance. -/
def sort_by_distance (positions : List Pos) : List (Pos × Pos) :=
  (combinations2 positions).mergeSort distLE

/-- `_limit`: connection budget, chosen from the input size (20 points means the
sample input, anything else the real input). -/
def _limit (positions : List Pos) : Nat :=
  if positions.length = 20 then 10 else 1000

/-- The `circuits` dictionary: insertion-ordered association list with distinct keys. -/
abbrev Circuits := List (Pos × Nat)

/-- `circuits[a]`: dictionary lookup, `none` models `KeyError`. -/
def clookup (a : Pos) : Circuits → Option Nat
  | [] => none
  | (k, v) :: rest => if k = a then some v else clookup a rest

/-- Label rewrite performed by `_connect`: labels equal to `lb` become `la`. -/
def relabelVal (la lb v : Nat) : Nat := if v = lb then la else v

/-- `_connect`: if the two endpoint labels differ, rewrite every entry labelled
with `b`'s label to `a`'s label; otherwise leave the dictionary unchanged. -/
def _connect (circuits : Circuits) (pos_a pos_b : Pos) : Option Circuits :=
  match clookup pos_a circuits, clookup pos_b circuits with
  | some la, some lb =>
      if la ≠ lb then
        some (circuits.map (fun pv => (pv.1, relabelVal la lb pv.2)))
      else some circuits
  | _, _ => none

/-- `circuits.values()` in iteration order. -/
def cvalues (c : Circuits) : List Nat := c.map Prod.snd

/-- Number of distinct circuit labels, `len(set(circuits.values()))`. -/
def numGroups (c : Circuits) : Nat := (cvalues c).toFinset.card

/-- `_are_connected`: `len(set(circuits.values())) == 1`. -/
def _are_connected (c : Circuits) : Bool := numGroups c == 1

/-- `collections.Counter(circuits.values()).values()`: the multiplicity of each
distinct label, i.e. the sizes of the circuit groups. -/
def counter_values (c : Circuits) : List Nat :=
  (cvalues c).dedup.map (fun v => (cvalues c).count v)

/-- `sorted(..., reverse=True)` comparison for `_top_3`. -/
def descLE (a b : Nat) : Bool := decide (b ≤ a)

/-- `_top_3`: group sizes sorted descending, first three kept. -/
def _top_3 (c : Circuits) : List Nat :=
  ((counter_values c).mergeSort descLE).take 3

/-- `functools.reduce(f, l)` with no initial value: fails on an empty list. -/
def reduce1 : List Nat → Option Nat
  | [] => none
  | x :: xs => some (xs.foldl (· * ·) x)

/-- `_score`: product of the top-3 group sizes via `functools.reduce`. -/
def _score (c : Circuits) : Option Nat := reduce1 (_top_3 c)

/-- One step of building a Python `dict`: update the value in place if the key
exists, otherwise append the new binding. -/
def dictInsert : Circuits → Pos → Nat → Circuits
  | [], k, v => [(k, v)]
  | (k1, v1) :: rest, k, v =>
      if k1 = k then (k1, v) :: rest else (k1, v1) :: dictInsert rest k v

/-- Folding dictionary insertions over an enumerated position list. -/
def buildFrom (c : Circuits) : List (Nat × Pos) → Circuits
  | [] => c
  | nv :: rest => buildFrom (dictInsert c nv.2 nv.1) rest

/-- `{_p: _n for _n, _p in enumerate(positions)}`. -/
def buildCircuits (positions : List Pos) : Circuits := buildFrom [] positions.enum

/-- The `for c in connections: _connect(circuits, *c)` loop of `solve_part_1`. -/
def foldConnect (c : Circuits) : List (Pos × Pos) → Option Circuits
  | [] => some c
  | e :: rest =>
      match _connect c e.1 e.2 with
      | none => none
      | some c1 => foldConnect c1 rest

/-- The search loop of `solve_part_2`: union each edge in order and return the
first edge after whose union all positions are connected. `none` models the
failing `assert connecting is not None` when the edge list is exhausted. -/
def loop2 (c : Circuits) : List (Pos × Pos) → Option (Pos × Pos)
  | [] => none
  | e :: rest =>
      match _connect c e.1 e.2 with
      | none => none
      | some c1 => if _are_connected c1 then some e else loop2 c1 rest

/-- Python `str.strip()` whitespace test (ASCII whitespace). -/
def isSpace (c : Char) : Bool :=
  c == ' ' || c == '\t' || c == '\n' || c == '\r' || c == '\x0b' || c == '\x0c'

/-- Python `str.strip()`. -/
def strip (s : List Char) : List Char :=
  ((s.dropWhile isSpace).reverse.dropWhile isSpace).reverse

/-- Python `str.split(sep)` for a one-character separator: splitting the empty
string yields `[""]`, and every separator occurrence opens a new field. -/
def splitOnChar (sep : Char) : List Char → List (List Char)
  | [] => [[]]
  | c :: rest =>
      if c = sep then [] :: splitOnChar sep rest
      else
        match splitOnChar sep rest with
        | [] => [[c]]
        | l :: ls => (c :: l) :: ls

/-- Numeric value of a decimal digit character. -/
def digitVal (c : Char) : Nat := c.toNat - 48

/-- Digits after the first one in a Python `int()` literal; a single underscore
may separate two digits. -/
def pyDigitsAux : Nat → List Char → Option Nat
  | acc, [] => some acc
  | _, ['_'] => none
  | acc, '_' :: c :: rest =>
      if c.isDigit then pyDigitsAux (acc * 10 + digitVal c) rest else none
  | acc, c :: rest =>
      if c.isDigit then pyDigitsAux (acc * 10 + digitVal c) rest else none

/-- The mandatory leading digit of a Python `int()` literal. -/
def pyIntCore : List Char → Option Nat
  | [] => none
  | c :: rest => if c.isDigit then pyDigitsAux (digitVal c) rest else none

/-- Python's `int(s)` on a string: optional surrounding whitespace, optional
sign, then a nonempty digit sequence; `none` models `ValueError`. -/
def pyInt (s : List Char) : Option Int :=
  match strip s with
  | '+' :: rest => (pyIntCore rest).map (fun n => (n : Int))
  | '-' :: rest => (pyIntCore rest).map (fun n => -(n : Int))
  | t => (pyIntCore t).map (fun n => (n : Int))

/-- `int(_) for _ in fields`: all fields parsed as integers, or a `ValueError`. -/
def mapPyInt : List (List Char) → Option (List Int)
  | [] => some []
  | f :: fs =>
      match pyInt f, mapPyInt fs with
      | some n, some ns => some (n :: ns)
      | _, _ => none

/-- `parse_line`: split on commas, parse each field as an integer, and require
exactly three of them (`assert len(res) == 3`). -/
def parse_line (line : List Char) : Option Pos :=
  match mapPyInt (splitOnChar ',' line) with
  | some [x, y, z] => some (x, y, z)
  | _ => none

/-- `[parse_line(line) for line in lines]`, failing if any line fails. -/
def mapParseLine : List (List Char) → Option (List Pos)
  | [] => some []
  | l :: ls =>
      match parse_line l, mapParseLine ls with
      | some p, some ps => some (p :: ps)
      | _, _ => none

/-- `parse_input`: strip the input, split on newlines, parse every line. -/
def parse_input (data : List Char) : Option (List Pos) :=
  mapParseLine (splitOnChar '\n' (strip data))

/-- `solve_part_1`: union the closest pairs up to the limit, then score. -/
def solve_part_1 (data : List Char) : Option Nat :=
  (parse_input data).bind fun positions =>
    (foldConnect (buildCircuits positions)
        ((sort_by_distance positions).take (_limit positions))).bind _score

/-- `solve_part_2`: find the connection unifying all positions and return the
product of the first coordinates of its two endpoints. -/
def solve_part_2 (data : List Char) : Option Int :=
  (parse_input data).bind fun positions =>
    (loop2 (buildCircuits positions) (sort_by_distance positions)).map
      (fun c => c.1.1 * c.2.1)

/-! ### Lemmas about pair generation (`itertools.combinations`) -/

theorem combinations2_length {α : Type} (l : List α) :
    (combinations2 l).length = l.length.choose 2 := by
  induction l with
  | nil => simp [combinations2]
  | cons x xs ih =>
      simp [combinations2, ih, Nat.choose_succ_succ, Nat.choose_one_right,
        Nat.add_comm]

theorem mem_combinations2 {α : Type} {p : α × α} :
    ∀ {l : List α}, p ∈ combinations2 l → p.1 ∈ l ∧ p.2 ∈ l := by
  intro l
  induction l with
  | nil => simp [combinations2]
  | cons x xs ih =>
      intro hp
      rcases List.mem_append.1 hp with h | h
      · rcases List.mem_map.1 h with ⟨y, hy, rfl⟩
        exact ⟨List.mem_cons_self _ _, List.mem_cons_of_mem _ hy⟩
      · exact ⟨List.mem_cons_of_mem _ (ih h).1, List.mem_cons_of_mem _ (ih h).2⟩

theorem combinations2_complete {α : Type} {a b : α} :
    ∀ {l : List α}, a ∈ l → b ∈ l → a ≠ b →
      (a, b) ∈ combinations2 l ∨ (b, a) ∈ combinations2 l := by
  intro l
  induction l with
  | nil => simp
  | cons x xs ih =>
      intro ha hb hne
      rcases List.mem_cons.1 ha with hax | hax
      · have hb' : b ∈ xs := by
          rcases List.mem_cons.1 hb with hbx | hbx
          · exact absurd (hax.trans hbx.symm) hne
          · exact hbx
        exact Or.inl (List.mem_append.2 (Or.inl (List.mem_map.2 ⟨b, hb', by rw [hax]⟩)))
      · rcases List.mem_cons.1 hb with hbx | hbx
        · exact Or.inr (List.mem_append.2 (Or.inl (List.mem_map.2 ⟨a, hax, by rw [hbx]⟩)))
        · rcases ih hax hbx hne with h | h
          · exact Or.inl (List.mem_append.2 (Or.inr h))
          · exact Or.inr (List.mem_append.2 (Or.inr h))

theorem combinations2_map {α β : Type} (f : α → β) :
    ∀ (l : List α),
      combinations2 (l.map f) = (combinations2 l).map (fun q => (f q.1, f q.2)) := by
  intro l
  induction l with
  | nil => simp [combinations2]
  | cons x xs ih => simp [combinations2, ih, List.map_map, Function.comp]

theorem enumFrom_pairwise_fst_lt {α : Type} :
    ∀ (n : Nat) (l : List α), (l.enumFrom n).Pairwise (fun a b => a.1 < b.1) := by
  intro n l
  induction l generalizing n with
  | nil => simp
  | cons x xs ih =>
      rw [List.enumFrom_cons]
      refine List.Pairwise.cons ?_ (ih (n + 1))
      intro b hb
      exact Nat.lt_of_lt_of_le (Nat.lt_succ_self n) (List.le_fst_of_mem_enumFrom hb)

theorem combinations2_pairwise_lex {α : Type} :
    ∀ {l : List (Nat × α)}, l.Pairwise (fun a b => a.1 < b.1) →
      (combinations2 l).Pairwise
        (fun q r => q.1.1 < r.1.1 ∨ (q.1.1 = r.1.1 ∧ q.2.1 < r.2.1)) := by
  intro l
  induction l with
  | nil => simp [combinations2]
  | cons x xs ih =>
      intro hp
      rcases List.pairwise_cons.1 hp with ⟨hx, hxs⟩
      rw [combinations2]
      refine List.pairwise_append.2 ⟨?_, ih hxs, ?_⟩
      · rw [List.pairwise_map]
        exact hxs.imp (fun h => Or.inr ⟨rfl, h⟩)
      · intro q hq r hr
        rcases List.mem_map.1 hq with ⟨y, _, rfl⟩
        exact Or.inl (hx _ (mem_combinations2 hr).1)

theorem combinations2_fst_lt {α : Type} :
    ∀ {l : List (Nat × α)}, l.Pairwise (fun a b => a.1 < b.1) →
      ∀ q ∈ combinations2 l, q.1.1 < q.2.1 := by
  intro l
  induction l with
  | nil => simp [combinations2]
  | cons x xs ih =>
      intro hp q hq
      rcases List.pairwise_cons.1 hp with ⟨hx, hxs⟩
      rcases List.mem_append.1 hq with h | h
      · rcases List.mem_map.1 h with ⟨y, hy, rfl⟩
        exact hx _ hy
      · exact ih hxs q h

/-! ### Lemmas about the circuits dictionary -/

theorem clookup_isSome_iff (a : Pos) :
    ∀ (c : Circuits), (clookup a c).isSome ↔ a ∈ c.map Prod.fst := by
  intro c
  induction c with
  | nil => simp [clookup]
  | cons kv rest ih =>
      obtain ⟨k, v⟩ := kv
      by_cases hk : k = a
      · subst hk
        simp [clookup]
      · simp [clookup, hk, ih, Ne.symm hk]

theorem clookup_mem_cvalues {a : Pos} {l : Nat} :
    ∀ {c : Circuits}, clookup a c = some l → l ∈ cvalues c := by
  intro c
  induction c with
  | nil => simp [clookup]
  | cons kv rest ih =>
      obtain ⟨k, v⟩ := kv
      by_cases hk : k = a
      · subst hk
        simp [clookup, cvalues]
        intro h
        exact Or.inl h.symm
      · simp [clookup, hk, cvalues] at *
        intro h
        exact Or.inr (ih h)

theorem mem_dictInsert_fst {p k : Pos} {v : Nat} :
    ∀ {c : Circuits}, p ∈ (dictInsert c k v).map Prod.fst ↔
      p ∈ c.map Prod.fst ∨ p = k := by
  intro c
  induction c with
  | nil => simp [dictInsert]
  | cons kv rest ih =>
      obtain ⟨k1, v1⟩ := kv
      by_cases hk : k1 = k
      · subst hk
        simp [dictInsert]
        tauto
      · simp [dictInsert, hk, ih]
        tauto

theorem dictInsert_fst_nodup {k : Pos} {v : Nat} :
    ∀ {c : Circuits}, (c.map Prod.fst).Nodup →
      ((dictInsert c k v).map Prod.fst).Nodup := by
  intro c
  induction c with
  | nil => simp [dictInsert]
  | cons kv rest ih =>
      obtain ⟨k1, v1⟩ := kv
      intro hnd
      rw [List.map_cons, List.nodup_cons] at hnd
      by_cases hk : k1 = k
      · subst hk
        simpa [dictInsert, List.nodup_cons] using hnd
      · rw [dictInsert]
        simp only [if_neg hk, List.map_cons, List.nodup_cons]
        refine ⟨?_, ih hnd.2⟩
        rw [mem_dictInsert_fst]
        rintro (h | h)
        · exact hnd.1 h
        · exact hk h

theorem mem_buildFrom_fst {p : Pos} :
    ∀ (l : List (Nat × Pos)) (c : Circuits),
      p ∈ (buildFrom c l).map Prod.fst ↔
        p ∈ c.map Prod.fst ∨ p ∈ l.map Prod.snd := by
  intro l
  induction l with
  | nil => simp [buildFrom]
  | cons nv rest ih =>
      intro c
      rw [buildFrom, ih, mem_dictInsert_fst]
      simp
      tauto

theorem buildFrom_fst_nodup :
    ∀ (l : List (Nat × Pos)) (c : Circuits), (c.map Prod.fst).Nodup →
      ((buildFrom c l).map Prod.fst).Nodup := by
  intro l
  induction l with
  | nil => exact fun c h => h
  | cons nv rest ih => exact fun c h => ih _ (dictInsert_fst_nodup h)

theorem mem_buildCircuits_fst {p : Pos} {positions : List Pos} :
    p ∈ (buildCircuits positions).map Prod.fst ↔ p ∈ positions := by
  rw [buildCircuits, mem_buildFrom_fst, List.enum_map_snd]
  simp

theorem buildCircuits_fst_nodup (positions : List Pos) :
    ((buildCircuits positions).map Prod.fst).Nodup :=
  buildFrom_fst_nodup _ _ (by simp)

/-! ### Lemmas about `_connect` and its folds -/

theorem _connect_isSome {c : Circuits} {a b : Pos}
    (h1 : (clookup a c).isSome) (h2 : (clookup b c).isSome) :
    (_connect c a b).isSome := by
  rw [_connect]
  obtain ⟨la, hla⟩ := Option.isSome_iff_exists.1 h1
  obtain ⟨lb, hlb⟩ := Option.isSome_iff_exists.1 h2
  rw [hla, hlb]
  by_cases h : la ≠ lb <;> simp [h]

theorem _connect_map_fst {c c' : Circuits} {a b : Pos}
    (h : _connect c a b = some c') : c'.map Prod.fst = c.map Prod.fst := by
  rw [_connect] at h
  rcases hla : clookup a c with _ | la <;> rcases hlb : clookup b c with _ | lb <;>
      rw [hla, hlb] at h
  · simp at h
  · simp at h
  · simp at h
  · by_cases hne : la ≠ lb
    · simp only [if_pos hne, Option.some.injEq] at h
      subst h
      simp [List.map_map, Function.comp]
    · simp only [if_neg hne, Option.some.injEq] at h
      subst h
      rfl

theorem clookup_map_relabel {x : Pos} {la lb : Nat} :
    ∀ (c : Circuits),
      clookup x (c.map (fun pv => (pv.1, relabelVal la lb pv.2))) =
        (clookup x c).map (relabelVal la lb) := by
  intro c
  induction c with
  | nil => simp [clookup]
  | cons kv rest ih =>
      obtain ⟨k, v⟩ := kv
      by_cases hk : k = x
      · subst hk
        simp [clookup]
      · simp [clookup, hk, ih]

theorem _connect_cases {c c' : Circuits} {a b : Pos}
    (h : _connect c a b = some c') :
    ∃ la lb, clookup a c = some la ∧ clookup b c = some lb ∧
      ((la = lb ∧ c' = c) ∨
        (la ≠ lb ∧ c' = c.map (fun pv => (pv.1, relabelVal la lb pv.2)))) := by
  rw [_connect] at h
  rcases hla : clookup a c with _ | la <;> rcases hlb : clookup b c with _ | lb <;>
      rw [hla, hlb] at h
  · simp at h
  · simp at h
  · simp at h
  · refine ⟨la, lb, rfl, rfl, ?_⟩
    by_cases hne : la ≠ lb
    · simp only [if_pos hne, Option.some.injEq] at h
      exact Or.inr ⟨hne, h.symm⟩
    · simp only [if_neg hne, Option.some.injEq] at h
      exact Or.inl ⟨Decidable.not_not.1 hne, h.symm⟩

theorem _connect_exists_label_map {c c' : Circuits} {a b : Pos}
    (h : _connect c a b = some c') :
    ∃ f : Nat → Nat, ∀ x, clookup x c' = (clookup x c).map f := by
  obtain ⟨la, lb, _, _, hcase | hcase⟩ := _connect_cases h
  · exact ⟨id, by simp [hcase.2]⟩
  · exact ⟨relabelVal la lb, by simp [hcase.2, clookup_map_relabel]⟩

theorem _connect_makes_sameLabel {c c' : Circuits} {a b : Pos}
    (h : _connect c a b = some c') :
    ∃ w, clookup a c' = some w ∧ clookup b c' = some w := by
  obtain ⟨la, lb, hla, hlb, hcase | hcase⟩ := _connect_cases h
  · exact ⟨la, by rw [hcase.2, hla], by rw [hcase.2, hlb, hcase.1]⟩
  · refine ⟨la, ?_, ?_⟩
    · rw [hcase.2, clookup_map_relabel, hla]
      simp [relabelVal]
    · rw [hcase.2, clookup_map_relabel, hlb]
      simp [relabelVal]

theorem foldConnect_cons_some {c c' : Circuits} {e : Pos × Pos}
    {rest : List (Pos × Pos)} (h : foldConnect c (e :: rest) = some c') :
    ∃ c1, _connect c e.1 e.2 = some c1 ∧ foldConnect c1 rest = some c' := by
  rw [foldConnect] at h
  rcases hc : _connect c e.1 e.2 with _ | c1 <;> rw [hc] at h
  · simp at h
  · exact ⟨c1, rfl, h⟩

theorem foldConnect_map_fst :
    ∀ {es : List (Pos × Pos)} {c c' : Circuits}, foldConnect c es = some c' →
      c'.map Prod.fst = c.map Prod.fst := by
  intro es
  induction es with
  | nil =>
      intro c c' h
      rw [foldConnect, Option.some.injEq] at h
      rw [h]
  | cons e rest ih =>
      intro c c' h
      obtain ⟨c1, hc1, hrest⟩ := foldConnect_cons_some h
      rw [ih hrest, _connect_map_fst hc1]

theorem foldConnect_exists_label_map :
    ∀ {es : List (Pos × Pos)} {c c' : Circuits}, foldConnect c es = some c' →
      ∃ f : Nat → Nat, ∀ x, clookup x c' = (clookup x c).map f := by
  intro es
  induction es with
  | nil =>
      intro c c' h
      rw [foldConnect, Option.some.injEq] at h
      exact ⟨id, by simp [h]⟩
  | cons e rest ih =>
      intro c c' h
      obtain ⟨c1, hc1, hrest⟩ := foldConnect_cons_some h
      obtain ⟨f, hf⟩ := _connect_exists_label_map hc1
      obtain ⟨g, hg⟩ := ih hrest
      exact ⟨g ∘ f, fun x => by rw [hg, hf, Option.map_map]⟩

theorem foldConnect_isSome :
    ∀ {es : List (Pos × Pos)} {c : Circuits},
      (∀ e ∈ es, e.1 ∈ c.map Prod.fst ∧ e.2 ∈ c.map Prod.fst) →
      (foldConnect c es).isSome := by
  intro es
  induction es with
  | nil => intro c _; simp [foldConnect]
  | cons e rest ih =>
      intro c hmem
      have h1 := (clookup_isSome_iff e.1 c).2 (hmem e (List.mem_cons_self _ _)).1
      have h2 := (clookup_isSome_iff e.2 c).2 (hmem e (List.mem_cons_self _ _)).2
      obtain ⟨c1, hc1⟩ := Option.isSome_iff_exists.1 (_connect_isSome h1 h2)
      rw [foldConnect, hc1]
      refine ih ?_
      intro e' he'
      rw [_connect_map_fst hc1]
      exact hmem e' (List.mem_cons_of_mem _ he')

theorem foldConnect_sameLabel_of_mem :
    ∀ {es : List (Pos × Pos)} {c c' : Circuits}, foldConnect c es = some c' →
      ∀ e ∈ es, ∃ w, clookup e.1 c' = some w ∧ clookup e.2 c' = some w := by
  intro es
  induction es with
  | nil => simp
  | cons e0 rest ih =>
      intro c c' h e he
      obtain ⟨c1, hc1, hrest⟩ := foldConnect_cons_some h
      rcases List.mem_cons.1 he with heq | he'
      · subst heq
        obtain ⟨w, hw1, hw2⟩ := _connect_makes_sameLabel hc1
        obtain ⟨g, hg⟩ := foldConnect_exists_label_map hrest
        exact ⟨g w, by rw [hg, hw1]; rfl, by rw [hg, hw2]; rfl⟩
      · exact ih hrest e he'

theorem clookup_eq_some_of_mem {k : Pos} {v : Nat} :
    ∀ {c : Circuits}, (c.map Prod.fst).Nodup → (k, v) ∈ c → clookup k c = some v := by
  intro c
  induction c with
  | nil => simp
  | cons kv rest ih =>
      obtain ⟨k1, v1⟩ := kv
      intro hnd hmem
      rw [List.map_cons, List.nodup_cons] at hnd
      rcases List.mem_cons.1 hmem with heq | hmem'
      · rw [Prod.mk.injEq] at heq
        rw [clookup, if_pos heq.1.symm, heq.2]
      · have hk1 : k1 ≠ k := by
          intro heq
          subst heq
          exact hnd.1 (List.mem_map.2 ⟨(k1, v), hmem', rfl⟩)
        rw [clookup, if_neg hk1]
        exact ih hnd.2 hmem'

theorem exists_key_of_mem_cvalues {v : Nat} {c : Circuits} (h : v ∈ cvalues c) :
    ∃ k, (k, v) ∈ c := by
  obtain ⟨⟨k, v1⟩, hmem, hv⟩ := List.mem_map.1 h
  exact ⟨k, by rwa [show v1 = v from hv] at hmem⟩

theorem toFinset_card_one {l : List Nat} {v : Nat} (hne : l ≠ [])
    (hall : ∀ x ∈ l, x = v) : l.toFinset.card = 1 := by
  have : l.toFinset = {v} := by
    ext x
    simp only [List.mem_toFinset, Finset.mem_singleton]
    constructor
    · exact hall x
    · intro hx
      subst hx
      obtain ⟨y, hy⟩ := List.exists_mem_of_ne_nil l hne
      have := hall y hy
      subst this
      exact hy
  rw [this, Finset.card_singleton]

theorem foldConnect_connected {ps : List Pos} {es : List (Pos × Pos)} {c' : Circuits}
    (hne : ps ≠ [])
    (h : foldConnect (buildCircuits ps) es = some c')
    (hcomplete : ∀ p q, p ∈ ps → q ∈ ps → p ≠ q → (p, q) ∈ es ∨ (q, p) ∈ es) :
    _are_connected c' = true := by
  have hkeys : c'.map Prod.fst = (buildCircuits ps).map Prod.fst := foldConnect_map_fst h
  have hnd : (c'.map Prod.fst).Nodup := by
    rw [hkeys]
    exact buildCircuits_fst_nodup ps
  have hmemkeys : ∀ p : Pos, p ∈ c'.map Prod.fst ↔ p ∈ ps := by
    intro p
    rw [hkeys, mem_buildCircuits_fst]
  obtain ⟨p0, hp0⟩ := List.exists_mem_of_ne_nil ps hne
  have hp0k : p0 ∈ c'.map Prod.fst := (hmemkeys p0).2 hp0
  obtain ⟨l0, hl0⟩ := Option.isSome_iff_exists.1 ((clookup_isSome_iff p0 c').2 hp0k)
  have hall : ∀ v ∈ cvalues c', v = l0 := by
    intro v hv
    obtain ⟨k, hkv⟩ := exists_key_of_mem_cvalues hv
    have hkl : clookup k c' = some v := clookup_eq_some_of_mem hnd hkv
    have hkps : k ∈ ps := (hmemkeys k).1 (List.mem_map.2 ⟨(k, v), hkv, rfl⟩)
    by_cases hkp0 : k = p0
    · subst hkp0
      rw [hkl] at hl0
      exact Option.some.inj hl0
    · have hpair := hcomplete p0 k hp0 hkps (Ne.symm hkp0)
      have hsame : ∃ w, clookup p0 c' = some w ∧ clookup k c' = some w := by
        rcases hpair with hp | hp
        · obtain ⟨w, hw1, hw2⟩ := foldConnect_sameLabel_of_mem h _ hp
          exact ⟨w, hw1, hw2⟩
        · obtain ⟨w, hw1, hw2⟩ := foldConnect_sameLabel_of_mem h _ hp
          exact ⟨w, hw2, hw1⟩
      obtain ⟨w, hw1, hw2⟩ := hsame
      rw [hl0] at hw1
      rw [hkl] at hw2
      exact (Option.some.inj hw2).trans (Option.some.inj hw1).symm
  have hvne : cvalues c' ≠ [] := by
    intro hcontra
    have : c'.map Prod.fst = [] := by
      have hlen : (cvalues c').length = (c'.map Prod.fst).length := by
        simp [cvalues]
      rw [hcontra] at hlen
      exact List.eq_nil_of_length_eq_zero hlen.symm
    rw [this] at hp0k
    exact absurd hp0k (List.not_mem_nil p0)
  simp only [_are_connected, numGroups, beq_iff_eq]
  exact toFinset_card_one hvne hall

theorem loop2_isSome :
    ∀ {es : List (Pos × Pos)} {c : Circuits}, es ≠ [] →
      ∀ {cf : Circuits}, foldConnect c es = some cf → _are_connected cf = true →
        (loop2 c es).isSome := by
  intro es
  induction es with
  | nil => intro c h; exact absurd rfl h
  | cons e0 rest ih =>
      intro c _ cf hfold hconn
      obtain ⟨c1, hc1, hrest⟩ := foldConnect_cons_some hfold
      rw [loop2, hc1]
      show (if _are_connected c1 = true then some e0 else loop2 c1 rest).isSome = true
      by_cases h1 : _are_connected c1 = true
      · rw [if_pos h1]
        simp
      · rw [if_neg h1]
        rcases hr : rest with _ | ⟨r0, rest1⟩
        · rw [hr, foldConnect, Option.some.injEq] at hrest
          rw [hrest] at h1
          exact absurd hconn h1
        · rw [← hr]
          refine ih ?_ hrest hconn
          rw [hr]
          simp

theorem loop2_spec :
    ∀ {es : List (Pos × Pos)} {c : Circuits} {e : Pos × Pos}, loop2 c es = some e →
      ∃ (k : Nat) (hk : k < es.length),
        es.get ⟨k, hk⟩ = e ∧
        ∃ cs, foldConnect c (es.take (k + 1)) = some cs ∧ _are_connected cs = true ∧
          ∀ j, j < k → ∀ cs', foldConnect c (es.take (j + 1)) = some cs' →
            _are_connected cs' = false := by
  intro es
  induction es with
  | nil =>
      intro c e h
      rw [loop2] at h
      exact absurd h (by simp)
  | cons e0 rest ih =>
      intro c e h
      rw [loop2] at h
      rcases hc : _connect c e0.1 e0.2 with _ | c1 <;> rw [hc] at h
      · simp at h
      · replace h : (if _are_connected c1 = true then some e0 else loop2 c1 rest) = some e := h
        by_cases hconn : _are_connected c1 = true
        · rw [if_pos hconn, Option.some.injEq] at h
          subst h
          refine ⟨0, by simp, rfl, c1, ?_, hconn, ?_⟩
          · rw [List.take_succ_cons, List.take_zero, foldConnect, hc]
            rfl
          · intro j hj
            exact absurd hj (Nat.not_lt_zero j)
        · rw [if_neg hconn] at h
          obtain ⟨k, hk, hget, cs, hfold, hcs, hmin⟩ := ih h
          refine ⟨k + 1, by simpa using Nat.succ_lt_succ hk, by simpa using hget,
            cs, ?_, hcs, ?_⟩
          · rw [List.take_succ_cons, foldConnect, hc]
            exact hfold
          · intro j hj cs' hf
            cases j with
            | zero =>
                rw [List.take_succ_cons, List.take_zero, foldConnect, hc] at hf
                replace hf : some c1 = some cs' := hf
                rw [← Option.some.inj hf]
                simpa using hconn
            | succ j1 =>
                rw [List.take_succ_cons, foldConnect, hc] at hf
                exact hmin j1 (Nat.lt_of_succ_lt_succ hj) cs' hf

/-! ### Lemmas about the distance sort -/

theorem distLE_trans : ∀ a b c : Pos × Pos, distLE a b → distLE b c → distLE a c := by
  intro a b c hab hbc
  simp only [distLE, decide_eq_true_eq] at *
  exact le_trans hab hbc

theorem distLE_total : ∀ a b : Pos × Pos, distLE a b || distLE b a := by
  intro a b
  simp only [distLE, Bool.or_eq_true, decide_eq_true_eq]
  exact le_total _ _

theorem sort_by_distance_perm (positions : List Pos) :
    (sort_by_distance positions).Perm (combinations2 positions) :=
  List.mergeSort_perm _ _

theorem sort_by_distance_sorted (positions : List Pos) :
    (sort_by_distance positions).Pairwise (fun e f => edgeWeight e ≤ edgeWeight f) := by
  have h := List.sorted_mergeSort distLE_trans distLE_total (combinations2 positions)
  exact h.imp (fun hle => by simpa [distLE, decide_eq_true_eq] using hle)

theorem enumLE_distLE_strict {x y : Nat × (Pos × Pos)}
    (h : List.enumLE distLE x y = true) (hne : x.1 ≠ y.1) :
    edgeWeight x.2 < edgeWeight y.2 ∨
      (edgeWeight x.2 = edgeWeight y.2 ∧ x.1 < y.1) := by
  by_cases hxy : edgeWeight x.2 ≤ edgeWeight y.2
  · by_cases hyx : edgeWeight y.2 ≤ edgeWeight x.2
    · right
      refine ⟨le_antisymm hxy hyx, ?_⟩
      rw [List.enumLE] at h
      simp only [distLE, decide_eq_true_eq] at h
      rw [if_pos hxy, if_pos hyx] at h
      exact Nat.lt_of_le_of_ne (by simpa using h) hne
    · exact Or.inl (lt_of_le_not_le hxy hyx)
  · rw [List.enumLE] at h
    simp [distLE, hxy] at h

theorem sort_by_distance_stable (positions : List Pos) :
    ∃ d : List (Nat × (Pos × Pos)),
      d.Perm (combinations2 positions).enum ∧
      d.map Prod.snd = sort_by_distance positions ∧
      d.Pairwise (fun x y => edgeWeight x.2 < edgeWeight y.2 ∨
        (edgeWeight x.2 = edgeWeight y.2 ∧ x.1 < y.1)) := by
  refine ⟨List.mergeSort ((combinations2 positions).enum) (List.enumLE distLE),
    List.mergeSort_perm _ _, List.mergeSort_enum, ?_⟩
  have h1 : (List.mergeSort ((combinations2 positions).enum)
      (List.enumLE distLE)).Pairwise (fun x y => List.enumLE distLE x y = true) :=
    List.sorted_mergeSort (List.enumLE_trans distLE_trans)
      (List.enumLE_total distLE_total) _
  have hnd : ((List.mergeSort ((combinations2 positions).enum)
      (List.enumLE distLE)).map Prod.fst).Nodup := by
    have hperm : ((List.mergeSort ((combinations2 positions).enum)
        (List.enumLE distLE)).map Prod.fst).Perm
          (((combinations2 positions).enum).map Prod.fst) :=
      (List.mergeSort_perm _ _).map _
    rw [List.enum_map_fst] at hperm
    exact (List.Perm.nodup_iff hperm).2 (List.nodup_range _)
  have h2 : (List.mergeSort ((combinations2 positions).enum)
      (List.enumLE distLE)).Pairwise (fun a b => a.1 ≠ b.1) :=
    List.pairwise_map.1 hnd
  exact (h1.and h2).imp (fun h => enumLE_distLE_strict h.1 h.2)

/-! ### Lemmas about parsing -/

theorem splitOnChar_ne_nil (sep : Char) : ∀ s : List Char, splitOnChar sep s ≠ [] := by
  intro s
  induction s with
  | nil => simp [splitOnChar]
  | cons c rest ih =>
      rw [splitOnChar]
      by_cases hc : c = sep
      · simp [hc]
      · rw [if_neg hc]
        rcases hs : splitOnChar sep rest with _ | ⟨l, ls⟩
        · exact absurd hs ih
        · simp

theorem mapParseLine_length :
    ∀ {L : List (List Char)} {ps : List Pos}, mapParseLine L = some ps →
      ps.length = L.length := by
  intro L
  induction L with
  | nil =>
      intro ps h
      rw [mapParseLine, Option.some.injEq] at h
      rw [← h]
      rfl
  | cons l ls ih =>
      intro ps h
      rw [mapParseLine] at h
      rcases hl : parse_line l with _ | p <;> rw [hl] at h
      · simp at h
      · rcases hls : mapParseLine ls with _ | ps1 <;> rw [hls] at h
        · simp at h
        · rw [Option.some.injEq] at h
          rw [← h, List.length_cons, ih hls, List.length_cons]

theorem strip_all_space {s : List Char} (h : s.all isSpace) : strip s = [] := by
  have h1 : s.dropWhile isSpace = [] :=
    List.dropWhile_eq_nil_iff.2 (fun x hx => List.all_eq_true.1 h x hx)
  rw [strip, h1]
  rfl

theorem parse_line_nil : parse_line [] = none := by rfl

theorem parse_input_length {s : List Char} {ps : List Pos}
    (h : parse_input s = some ps) : 0 < ps.length := by
  rw [parse_input] at h
  rw [mapParseLine_length h]
  exact List.length_pos.2 (splitOnChar_ne_nil _ _)

/-! ### Lemmas about the score -/

theorem reduce1_eq_prod : ∀ {l : List Nat}, l ≠ [] → reduce1 l = some l.prod := by
  intro l h
  rcases l with _ | ⟨x, xs⟩
  · exact absurd rfl h
  · rw [reduce1, Option.some.injEq, List.prod_cons, List.prod_eq_foldl]
    have hx1 : xs.foldl (· * ·) (x * 1) = x * xs.foldl (· * ·) 1 :=
      List.foldl_assoc
    rw [← List.prod_eq_foldl, Nat.mul_one] at hx1
    rw [hx1, List.prod_eq_foldl]

theorem descLE_trans : ∀ a b c : Nat, descLE a b → descLE b c → descLE a c := by
  intro a b c hab hbc
  simp only [descLE, decide_eq_true_eq] at *
  exact le_trans hbc hab

theorem descLE_total : ∀ a b : Nat, descLE a b || descLE b a := by
  intro a b
  simp only [descLE, Bool.or_eq_true, decide_eq_true_eq]
  exact le_total _ _

theorem counter_values_ne_nil {c : Circuits} (h : c ≠ []) : counter_values c ≠ [] := by
  rw [counter_values]
  intro hcontra
  rcases List.map_eq_nil_iff.1 hcontra with hd
  rw [List.dedup_eq_nil] at hd
  rcases List.map_eq_nil_iff.1 hd with hc
  exact h hc

theorem counter_values_sum (c : Circuits) : (counter_values c).sum = c.length := by
  rw [counter_values]
  have := List.sum_map_count_dedup_eq_length (cvalues c)
  rw [this]
  simp [cvalues]

theorem top3_sorted_desc (c : Circuits) :
    ((counter_values c).mergeSort descLE).Pairwise (fun a b => b ≤ a) := by
  have h := List.sorted_mergeSort descLE_trans descLE_total (counter_values c)
  exact h.imp (fun hle => by simpa [descLE, decide_eq_true_eq] using hle)

theorem top3_take_drop (c : Circuits) :
    ∀ x ∈ _top_3 c, ∀ y ∈ ((counter_values c).mergeSort descLE).drop 3, y ≤ x := by
  have hsplit : (counter_values c).mergeSort descLE =
      ((counter_values c).mergeSort descLE).take 3 ++
        ((counter_values c).mergeSort descLE).drop 3 :=
    (List.take_append_drop 3 _).symm
  have hp := top3_sorted_desc c
  rw [hsplit, List.pairwise_append] at hp
  intro x hx y hy
  exact hp.2.2 x hx y hy

theorem top3_ne_nil {c : Circuits} (h : c ≠ []) : _top_3 c ≠ [] := by
  rw [_top_3]
  have hne : (counter_values c).mergeSort descLE ≠ [] := by
    intro hcontra
    have := congrArg List.length hcontra
    rw [List.length_mergeSort] at this
    exact counter_values_ne_nil h (List.eq_nil_of_length_eq_zero this)
  rcases hs : (counter_values c).mergeSort descLE with _ | ⟨x, xs⟩
  · exact absurd hs hne
  · simp

/-! ### Lemmas about group counting -/

theorem list_toFinset_map (l : List Nat) (f : Nat → Nat) :
    (l.map f).toFinset = l.toFinset.image f := by
  ext x
  simp [List.mem_toFinset, Finset.mem_image]

theorem cvalues_relabel (c : Circuits) (la lb : Nat) :
    cvalues (c.map (fun pv => (pv.1, relabelVal la lb pv.2))) =
      (cvalues c).map (relabelVal la lb) := by
  simp [cvalues, List.map_map, Function.comp]

theorem image_relabel {S : Finset Nat} {la lb : Nat} (hla : la ∈ S) (hne : la ≠ lb) :
    S.image (relabelVal la lb) = S.erase lb := by
  ext x
  simp only [Finset.mem_image, Finset.mem_erase]
  constructor
  · rintro ⟨v, hv, rfl⟩
    by_cases hvlb : v = lb
    · subst hvlb
      simp only [relabelVal, if_pos rfl]
      exact ⟨hne, hla⟩
    · simp only [relabelVal, if_neg hvlb]
      exact ⟨hvlb, hv⟩
  · rintro ⟨hxlb, hx⟩
    exact ⟨x, hx, by simp [relabelVal, hxlb]⟩

theorem numGroups_relabel {c : Circuits} {la lb : Nat}
    (hla : la ∈ cvalues c) (hlb : lb ∈ cvalues c) (hne : la ≠ lb) :
    numGroups (c.map (fun pv => (pv.1, relabelVal la lb pv.2))) + 1 = numGroups c := by
  rw [numGroups, numGroups, cvalues_relabel, list_toFinset_map,
    image_relabel (List.mem_toFinset.2 hla) hne,
    Finset.card_erase_of_mem (List.mem_toFinset.2 hlb)]
  have hpos : 0 < (cvalues c).toFinset.card :=
    Finset.card_pos.2 ⟨lb, List.mem_toFinset.2 hlb⟩
  omega

/-! ### Claim theorems -/

/-- C1: for every point sequence, `sort_by_distance` returns the complete list of
all n·(n−1)/2 unordered pairs of distinct point identities (a permutation of the
generated pair list), sorted ascending by the exact squared Euclidean distance,
with ties on equal weight broken by the pair-generation order; the generation
order is lexicographic on the 0-based input positions (firstIndex, secondIndex)
with firstIndex < secondIndex. -/
theorem claim_C1 (positions : List Pos) :
    (sort_by_distance positions).length =
      positions.length * (positions.length - 1) / 2 ∧
    (sort_by_distance positions).Perm (combinations2 positions) ∧
    (sort_by_distance positions).Pairwise (fun e f => edgeWeight e ≤ edgeWeight f) ∧
    (∃ d : List (Nat × (Pos × Pos)),
      d.Perm (combinations2 positions).enum ∧
      d.map Prod.snd = sort_by_distance positions ∧
      d.Pairwise (fun x y => edgeWeight x.2 < edgeWeight y.2 ∨
        (edgeWeight x.2 = edgeWeight y.2 ∧ x.1 < y.1))) ∧
    (combinations2 positions.enum).map (fun q => (q.1.2, q.2.2)) =
      combinations2 positions ∧
    (combinations2 positions.enum).Pairwise
      (fun q r => q.1.1 < r.1.1 ∨ (q.1.1 = r.1.1 ∧ q.2.1 < r.2.1)) ∧
    ∀ q ∈ combinations2 positions.enum, q.1.1 < q.2.1 := by
  refine ⟨?_, sort_by_distance_perm positions, sort_by_distance_sorted positions,
    sort_by_distance_stable positions, ?_, ?_, ?_⟩
  · rw [sort_by_distance, List.length_mergeSort, combinations2_length,
      Nat.choose_two_right]
  · have h := combinations2_map Prod.snd positions.enum
    rw [List.enum_map_snd] at h
    exact h.symm
  · exact combinations2_pairwise_lex (enumFrom_pairwise_fst_lt 0 positions)
  · exact combinations2_fst_lt (enumFrom_pairwise_fst_lt 0 positions)

/-- C7: union is idempotent — if the two points already carry the same label,
`_connect` succeeds and returns the very same forest, so the group-size
multiset and the group count are unchanged. -/
theorem claim_C7 {c : Circuits} {a b : Pos} {l : Nat}
    (ha : clookup a c = some l) (hb : clookup b c = some l) :
    ∃ c', _connect c a b = some c' ∧ c' = c ∧
      counter_values c' = counter_values c ∧ numGroups c' = numGroups c := by
  refine ⟨c, ?_, rfl, rfl, rfl⟩
  rw [_connect, ha, hb]
  simp

/-- C9: each union is monotone in the number of groups — the group count never
increases, it strictly decreases exactly when the two endpoints carried
distinct labels before the union, and in that case it decreases by exactly
one; when the labels were equal the forest is returned unchanged. -/
theorem claim_C9 {c c' : Circuits} {a b : Pos} {la lb : Nat}
    (ha : clookup a c = some la) (hb : clookup b c = some lb)
    (h : _connect c a b = some c') :
    numGroups c' ≤ numGroups c ∧
    (numGroups c' < numGroups c ↔ la ≠ lb) ∧
    (la ≠ lb → numGroups c' + 1 = numGroups c) ∧
    (la = lb → c' = c) := by
  obtain ⟨la1, lb1, ha1, hb1, hcase⟩ := _connect_cases h
  rw [ha] at ha1
  rw [hb] at hb1
  rw [← Option.some.inj ha1, ← Option.some.inj hb1] at hcase
  rcases hcase with ⟨heq, hc⟩ | ⟨hne, hc⟩
  · subst hc
    refine ⟨le_refl _, ?_, ?_, fun _ => rfl⟩
    · simp [heq]
    · intro hcontra
      exact absurd heq hcontra
  · subst hc
    have hstep := numGroups_relabel (clookup_mem_cvalues ha) (clookup_mem_cvalues hb) hne
    refine ⟨by omega, ?_, fun _ => hstep, fun heq => absurd heq hne⟩
    constructor
    · intro _
      exact hne
    · intro _
      omega

/-- C10: parsing an empty or whitespace-only input fails rather than returning
an empty position sequence — stripping yields the empty string, splitting it
on newlines yields one empty line, and parsing that line fails; and in
general a successful parse always returns at least one position. -/
theorem claim_C10 :
    (∀ s : List Char, s.all isSpace = true →
      strip s = [] ∧ splitOnChar '\n' (strip s) = [[]] ∧ parse_line [] = none ∧
        parse_input s = none) ∧
    (∀ (s : List Char) (ps : List Pos), parse_input s = some ps → 0 < ps.length) := by
  constructor
  · intro s h
    have h1 := strip_all_space h
    refine ⟨h1, by rw [h1]; rfl, parse_line_nil, ?_⟩
    rw [parse_input, h1]
    rfl
  · exact fun s ps h => parse_input_length h

/-- C2: on a successful run, the connectivity query processed the sorted edges
in order into a fresh forest, the returned value is the product of the first
coordinates of the two endpoints of the bridge edge, and that edge is exactly
the first one after whose union the forest is fully connected. -/
theorem claim_C2 {data : List Char} {positions : List Pos} {v : Int}
    (hparse : parse_input data = some positions)
    (hsolve : solve_part_2 data = some v) :
    ∃ (k : Nat) (hk : k < (sort_by_distance positions).length),
      ∃ c : Pos × Pos,
        (sort_by_distance positions).get ⟨k, hk⟩ = c ∧
        v = c.1.1 * c.2.1 ∧
        (∃ cs, foldConnect (buildCircuits positions)
            ((sort_by_distance positions).take (k + 1)) = some cs ∧
          _are_connected cs = true) ∧
        ∀ j, j < k → ∀ cs', foldConnect (buildCircuits positions)
            ((sort_by_distance positions).take (j + 1)) = some cs' →
          _are_connected cs' = false := by
  rw [solve_part_2, hparse] at hsolve
  replace hsolve : (loop2 (buildCircuits positions) (sort_by_distance positions)).map
      (fun c => c.1.1 * c.2.1) = some v := hsolve
  rcases hl : loop2 (buildCircuits positions) (sort_by_distance positions)
      with _ | e <;> rw [hl] at hsolve
  · simp at hsolve
  · obtain ⟨k, hk, hget, cs, hfold, hconn, hmin⟩ := loop2_spec hl
    refine ⟨k, hk, e, hget, ?_, ⟨cs, hfold, hconn⟩, hmin⟩
    replace hsolve : some (e.1.1 * e.2.1) = some v := hsolve
    exact (Option.some.inj hsolve).symm

theorem sort_by_distance_nil_of_lt_two {ps : List Pos} (h : ps.length < 2) :
    sort_by_distance ps = [] := by
  have hlen : (sort_by_distance ps).length = 0 := by
    rw [sort_by_distance, List.length_mergeSort, combinations2_length]
    exact Nat.choose_eq_zero_of_lt h
  exact List.eq_nil_of_length_eq_zero hlen

theorem sort_by_distance_ne_nil {ps : List Pos} (h : 2 ≤ ps.length) :
    sort_by_distance ps ≠ [] := by
  intro hcontra
  have hlen := congrArg List.length hcontra
  rw [sort_by_distance, List.length_mergeSort, combinations2_length] at hlen
  simp only [List.length_nil] at hlen
  have := Nat.choose_pos h
  omega

theorem edges_mem_keys {ps : List Pos} :
    ∀ e ∈ sort_by_distance ps,
      e.1 ∈ (buildCircuits ps).map Prod.fst ∧
        e.2 ∈ (buildCircuits ps).map Prod.fst := by
  intro e he
  have hm : e ∈ combinations2 ps := (sort_by_distance_perm ps).subset he
  obtain ⟨h1, h2⟩ := mem_combinations2 hm
  exact ⟨mem_buildCircuits_fst.2 h1, mem_buildCircuits_fst.2 h2⟩

theorem solve_part_2_exists {data : List Char} {positions : List Pos}
    (hparse : parse_input data = some positions) (h2 : 2 ≤ positions.length) :
    ∃ v, solve_part_2 data = some v := by
  have hne : sort_by_distance positions ≠ [] := sort_by_distance_ne_nil h2
  have hfold : (foldConnect (buildCircuits positions)
      (sort_by_distance positions)).isSome :=
    foldConnect_isSome edges_mem_keys
  obtain ⟨cf, hcf⟩ := Option.isSome_iff_exists.1 hfold
  have hpsne : positions ≠ [] := by
    intro hcontra
    rw [hcontra] at h2
    simp at h2
  have hconn : _are_connected cf = true := by
    refine foldConnect_connected hpsne hcf ?_
    intro p q hp hq hpq
    rcases combinations2_complete hp hq hpq with h | h
    · exact Or.inl ((sort_by_distance_perm positions).mem_iff.2 h)
    · exact Or.inr ((sort_by_distance_perm positions).mem_iff.2 h)
  have hloop := loop2_isSome hne hcf hconn
  obtain ⟨e, he⟩ := Option.isSome_iff_exists.1 hloop
  refine ⟨e.1.1 * e.2.1, ?_⟩
  rw [solve_part_2, hparse]
  show (loop2 (buildCircuits positions) (sort_by_distance positions)).map
      (fun c => c.1.1 * c.2.1) = some (e.1.1 * e.2.1)
  rw [he]
  rfl

theorem solve_part_2_none {data : List Char} {positions : List Pos}
    (hparse : parse_input data = some positions) (h2 : positions.length < 2) :
    solve_part_2 data = none := by
  rw [solve_part_2, hparse]
  show (loop2 (buildCircuits positions) (sort_by_distance positions)).map
      (fun c => c.1.1 * c.2.1) = none
  rw [sort_by_distance_nil_of_lt_two h2]
  rfl

/-- C3 counterexample: the single-point input parses to one position, yet the
connectivity query fails (its trailing assertion fires on the empty edge
list), contradicting the claim that it cannot fail for n = 1. -/
theorem claim_C3_counterexample :
    parse_input (("1,2,3").toList) = some [((1 : Int), (2 : Int), (3 : Int))] ∧
    solve_part_2 (("1,2,3").toList) = none := by
  constructor
  · rfl
  · exact solve_part_2_none rfl (by decide)

/-- C3 (amended): the connectivity query fails exactly when fewer than two
points were parsed — the edge list is then empty, the loop never runs and the
trailing assertion fires even for n = 1; for n ≥ 2 the query always
succeeds because the complete pair list connects everything. -/
theorem claim_C3_amended {data : List Char} {positions : List Pos}
    (hparse : parse_input data = some positions) :
    (2 ≤ positions.length → ∃ v, solve_part_2 data = some v) ∧
    (positions.length < 2 → solve_part_2 data = none) :=
  ⟨fun h2 => solve_part_2_exists hparse h2, fun h2 => solve_part_2_none hparse h2⟩

/-- C8: the partition invariant — after any sequence of unions folded into a
freshly built forest, the group sizes sum to the number of registered points,
the registered keys are exactly the distinct parsed positions, and every
registered point carries exactly one group label, which occurs exactly once
among the distinct labels. -/
theorem claim_C8 {ps : List Pos} {es : List (Pos × Pos)} {cf : Circuits}
    (h : foldConnect (buildCircuits ps) es = some cf) :
    (counter_values cf).sum = cf.length ∧
    cf.length = (buildCircuits ps).length ∧
    (cf.map Prod.fst).Nodup ∧
    (∀ p, p ∈ cf.map Prod.fst ↔ p ∈ ps) ∧
    ∀ p l, clookup p cf = some l → (cvalues cf).dedup.count l = 1 := by
  have hkeys := foldConnect_map_fst h
  refine ⟨counter_values_sum cf, ?_, ?_, ?_, ?_⟩
  · have := congrArg List.length hkeys
    simpa using this
  · rw [hkeys]
    exact buildCircuits_fst_nodup ps
  · intro p
    rw [hkeys, mem_buildCircuits_fst]
  · intro p l hl
    have hmem : l ∈ cvalues cf := clookup_mem_cvalues hl
    exact List.count_eq_one_of_mem (List.nodup_dedup _) (List.mem_dedup.2 hmem)

theorem edgeWeight_nonneg (e : Pos × Pos) : 0 ≤ edgeWeight e := by
  rw [edgeWeight, get_distance]
  positivity

/-- C4 counterexample: two input positions with identical coordinates are
collapsed into a single dictionary key (the second occurrence overwrites the
first), so the forest registers one point, in one group of size 1 — not two
separate identities forming a size-2 group. -/
theorem claim_C4_counterexample :
    buildCircuits [((0 : Int), (0 : Int), (0 : Int)),
        ((0 : Int), (0 : Int), (0 : Int))] =
      [(((0 : Int), (0 : Int), (0 : Int)), 1)] ∧
    counter_values (buildCircuits [((0 : Int), (0 : Int), (0 : Int)),
        ((0 : Int), (0 : Int), (0 : Int))]) = [1] ∧
    (buildCircuits [((0 : Int), (0 : Int), (0 : Int)),
        ((0 : Int), (0 : Int), (0 : Int))]).length = 1 := by
  refine ⟨rfl, rfl, rfl⟩

/-- C4 (amended): coincident input positions are collapsed to one identity —
the forest keys are exactly the distinct coordinate triples, each registered
once; a weight-0 pair still sorts before every strictly positive-weight pair
(weights are non-negative and the list is sorted ascending), but unioning a
collapsed duplicate pair is a no-op on the forest. -/
theorem claim_C4_amended (ps : List Pos) (p : Pos) :
    ((buildCircuits ps).map Prod.fst).Nodup ∧
    (p ∈ (buildCircuits ps).map Prod.fst ↔ p ∈ ps) ∧
    (∀ (c : Circuits) (l : Nat), clookup p c = some l → _connect c p p = some c) ∧
    (sort_by_distance ps).Pairwise (fun e f => edgeWeight f = 0 → edgeWeight e = 0) := by
  refine ⟨buildCircuits_fst_nodup ps, mem_buildCircuits_fst, ?_, ?_⟩
  · intro c l h
    rw [_connect, h]
    simp
  · refine (sort_by_distance_sorted ps).imp ?_
    intro e f hle hf0
    rw [hf0] at hle
    exact le_antisymm hle (edgeWeight_nonneg e)

/-- C5 counterexample: the edge budget is not a caller-supplied parameter — it
is inferred from the input size: a 20-point input gets budget 10 and consumes
10 edges, while a 21-point input gets budget 1000 and consumes all 210 of its
edges, so the number of consumed edges depends on the point count. -/
theorem claim_C5_counterexample :
    _limit ((List.range 20).map (fun i : Nat => ((i : Int), (0 : Int), (0 : Int)))) = 10 ∧
    _limit ((List.range 21).map (fun i : Nat => ((i : Int), (0 : Int), (0 : Int)))) = 1000 ∧
    ((sort_by_distance ((List.range 20).map
          (fun i : Nat => ((i : Int), (0 : Int), (0 : Int))))).take
        (_limit ((List.range 20).map
          (fun i : Nat => ((i : Int), (0 : Int), (0 : Int)))))).length = 10 ∧
    ((sort_by_distance ((List.range 21).map
          (fun i : Nat => ((i : Int), (0 : Int), (0 : Int))))).take
        (_limit ((List.range 21).map
          (fun i : Nat => ((i : Int), (0 : Int), (0 : Int)))))).length = 210 := by
  have h20 : ((List.range 20).map
      (fun i : Nat => ((i : Int), (0 : Int), (0 : Int)))).length = 20 := by
    rw [List.length_map, List.length_range]
  have h21 : ((List.range 21).map
      (fun i : Nat => ((i : Int), (0 : Int), (0 : Int)))).length = 21 := by
    rw [List.length_map, List.length_range]
  have hl20 : _limit ((List.range 20).map
      (fun i : Nat => ((i : Int), (0 : Int), (0 : Int)))) = 10 := by
    rw [_limit, h20]
    decide
  have hl21 : _limit ((List.range 21).map
      (fun i : Nat => ((i : Int), (0 : Int), (0 : Int)))) = 1000 := by
    rw [_limit, h21]
    decide
  refine ⟨hl20, hl21, ?_, ?_⟩
  · rw [List.length_take, hl20, sort_by_distance, List.length_mergeSort,
      combinations2_length, h20]
    decide
  · rw [List.length_take, hl21, sort_by_distance, List.length_mergeSort,
      combinations2_length, h21]
    decide

/-- C5 (amended): the budget is inferred from the input size by `_limit`
(10 for exactly 20 points, 1000 otherwise), and the bounded cluster query
consumes exactly the first `_limit positions` edges of the sorted edge list
(fewer when the list is shorter). -/
theorem claim_C5_amended {data : List Char} {positions : List Pos}
    (hparse : parse_input data = some positions) :
    solve_part_1 data =
      (foldConnect (buildCircuits positions)
        ((sort_by_distance positions).take (_limit positions))).bind _score ∧
    _limit positions = (if positions.length = 20 then 10 else 1000) ∧
    ((sort_by_distance positions).take (_limit positions)).length =
      min (_limit positions) ((sort_by_distance positions).length) ∧
    (sort_by_distance positions).take (_limit positions) ++
        (sort_by_distance positions).drop (_limit positions) =
      sort_by_distance positions := by
  refine ⟨?_, rfl, List.length_take _ _, List.take_append_drop _ _⟩
  rw [solve_part_1, hparse]
  rfl

/-- C6 counterexample: with zero groups (an empty forest) the score is not the
identity product 1 — the reduction has no initial element, so the scoring
query fails instead. -/
theorem claim_C6_counterexample :
    _score ([] : Circuits) = none ∧ _score ([] : Circuits) ≠ some 1 := by
  have h : _score ([] : Circuits) = none := by
    simp [_score, _top_3, counter_values, cvalues, reduce1]
  exact ⟨h, by rw [h]; simp⟩

/-- C6 (amended): when at least one group exists, the score is the product of
the up-to-three largest group sizes (a short top-list multiplies the
available sizes, the same as filling missing slots with the identity 1);
with zero groups the reduce has no initial element and fails rather than
returning 1. -/
theorem claim_C6_amended {c : Circuits} (h : c ≠ []) :
    _score c = some ((_top_3 c).prod) ∧
    _top_3 c ≠ [] ∧
    (_top_3 c).length ≤ 3 ∧
    (_top_3 c).Pairwise (fun a b => b ≤ a) ∧
    ((counter_values c).mergeSort descLE).Perm (counter_values c) ∧
    _top_3 c = ((counter_values c).mergeSort descLE).take 3 ∧
    ∀ x ∈ _top_3 c, ∀ y ∈ ((counter_values c).mergeSort descLE).drop 3, y ≤ x := by
  refine ⟨?_, top3_ne_nil h, ?_, ?_, List.mergeSort_perm _ _, rfl, top3_take_drop c⟩
  · rw [_score, reduce1_eq_prod (top3_ne_nil h)]
  · rw [_top_3]
    exact List.length_take_le _ _
  · rw [_top_3]
    exact (top3_sorted_desc c).sublist (List.take_sublist 3 _)

/-! ### Witnesses -/

theorem claim_C2_witness :
    ∃ v : Int,
      ∃ (k : Nat) (hk : k < (sort_by_distance [((0 : Int), (0 : Int), (0 : Int)),
          ((1 : Int), (0 : Int), (0 : Int)),
          ((5 : Int), (0 : Int), (0 : Int))]).length),
      ∃ c : Pos × Pos,
        (sort_by_distance [((0 : Int), (0 : Int), (0 : Int)),
          ((1 : Int), (0 : Int), (0 : Int)),
          ((5 : Int), (0 : Int), (0 : Int))]).get ⟨k, hk⟩ = c ∧
        v = c.1.1 * c.2.1 ∧
        (∃ cs, foldConnect (buildCircuits [((0 : Int), (0 : Int), (0 : Int)),
            ((1 : Int), (0 : Int), (0 : Int)), ((5 : Int), (0 : Int), (0 : Int))])
            ((sort_by_distance [((0 : Int), (0 : Int), (0 : Int)),
              ((1 : Int), (0 : Int), (0 : Int)),
              ((5 : Int), (0 : Int), (0 : Int))]).take (k + 1)) = some cs ∧
          _are_connected cs = true) ∧
        ∀ j, j < k → ∀ cs', foldConnect (buildCircuits
            [((0 : Int), (0 : Int), (0 : Int)), ((1 : Int), (0 : Int), (0 : Int)),
              ((5 : Int), (0 : Int), (0 : Int))])
            ((sort_by_distance [((0 : Int), (0 : Int), (0 : Int)),
              ((1 : Int), (0 : Int), (0 : Int)),
              ((5 : Int), (0 : Int), (0 : Int))]).take (j + 1)) = some cs' →
          _are_connected cs' = false := by
  obtain ⟨v, hv⟩ := solve_part_2_exists
    (show parse_input (("0,0,0\n1,0,0\n5,0,0").toList) =
      some [((0 : Int), (0 : Int), (0 : Int)), ((1 : Int), (0 : Int), (0 : Int)),
        ((5 : Int), (0 : Int), (0 : Int))] from rfl) (by decide)
  exact ⟨v, claim_C2 (show parse_input (("0,0,0\n1,0,0\n5,0,0").toList) =
    some [((0 : Int), (0 : Int), (0 : Int)), ((1 : Int), (0 : Int), (0 : Int)),
      ((5 : Int), (0 : Int), (0 : Int))] from rfl) hv⟩

theorem claim_C3_amended_witness :
    (∃ v, solve_part_2 (("0,0,0\n1,0,0\n5,0,0").toList) = some v) ∧
    solve_part_2 (("1,2,3").toList) = none := by
  constructor
  · exact (claim_C3_amended (show parse_input (("0,0,0\n1,0,0\n5,0,0").toList) =
      some [((0 : Int), (0 : Int), (0 : Int)), ((1 : Int), (0 : Int), (0 : Int)),
        ((5 : Int), (0 : Int), (0 : Int))] from rfl)).1 (by decide)
  · exact (claim_C3_amended (show parse_input (("1,2,3").toList) =
      some [((1 : Int), (2 : Int), (3 : Int))] from rfl)).2 (by decide)

theorem claim_C4_amended_witness :
    _connect (buildCircuits [((0 : Int), (0 : Int), (0 : Int)),
        ((0 : Int), (0 : Int), (0 : Int))])
      ((0 : Int), (0 : Int), (0 : Int)) ((0 : Int), (0 : Int), (0 : Int)) =
    some (buildCircuits [((0 : Int), (0 : Int), (0 : Int)),
        ((0 : Int), (0 : Int), (0 : Int))]) :=
  (claim_C4_amended [((0 : Int), (0 : Int), (0 : Int)),
      ((0 : Int), (0 : Int), (0 : Int))] ((0 : Int), (0 : Int), (0 : Int))).2.2.1
    (buildCircuits [((0 : Int), (0 : Int), (0 : Int)),
      ((0 : Int), (0 : Int), (0 : Int))]) 1 (by rfl)

theorem claim_C5_amended_witness :
    solve_part_1 (("0,0,0\n1,0,0\n5,0,0").toList) =
      (foldConnect (buildCircuits [((0 : Int), (0 : Int), (0 : Int)),
          ((1 : Int), (0 : Int), (0 : Int)), ((5 : Int), (0 : Int), (0 : Int))])
        ((sort_by_distance [((0 : Int), (0 : Int), (0 : Int)),
          ((1 : Int), (0 : Int), (0 : Int)), ((5 : Int), (0 : Int), (0 : Int))]).take
          (_limit [((0 : Int), (0 : Int), (0 : Int)),
            ((1 : Int), (0 : Int), (0 : Int)),
            ((5 : Int), (0 : Int), (0 : Int))]))).bind _score ∧
    _limit [((0 : Int), (0 : Int), (0 : Int)), ((1 : Int), (0 : Int), (0 : Int)),
        ((5 : Int), (0 : Int), (0 : Int))] =
      (if ([((0 : Int), (0 : Int), (0 : Int)), ((1 : Int), (0 : Int), (0 : Int)),
        ((5 : Int), (0 : Int), (0 : Int))] : List Pos).length = 20
        then 10 else 1000) ∧
    ((sort_by_distance [((0 : Int), (0 : Int), (0 : Int)),
        ((1 : Int), (0 : Int), (0 : Int)), ((5 : Int), (0 : Int), (0 : Int))]).take
        (_limit [((0 : Int), (0 : Int), (0 : Int)), ((1 : Int), (0 : Int), (0 : Int)),
          ((5 : Int), (0 : Int), (0 : Int))])).length =
      min (_limit [((0 : Int), (0 : Int), (0 : Int)), ((1 : Int), (0 : Int), (0 : Int)),
          ((5 : Int), (0 : Int), (0 : Int))])
        ((sort_by_distance [((0 : Int), (0 : Int), (0 : Int)),
          ((1 : Int), (0 : Int), (0 : Int)),
          ((5 : Int), (0 : Int), (0 : Int))]).length) ∧
    (sort_by_distance [((0 : Int), (0 : Int), (0 : Int)),
        ((1 : Int), (0 : Int), (0 : Int)), ((5 : Int), (0 : Int), (0 : Int))]).take
        (_limit [((0 : Int), (0 : Int), (0 : Int)), ((1 : Int), (0 : Int), (0 : Int)),
          ((5 : Int), (0 : Int), (0 : Int))]) ++
      (sort_by_distance [((0 : Int), (0 : Int), (0 : Int)),
        ((1 : Int), (0 : Int), (0 : Int)), ((5 : Int), (0 : Int), (0 : Int))]).drop
        (_limit [((0 : Int), (0 : Int), (0 : Int)), ((1 : Int), (0 : Int), (0 : Int)),
          ((5 : Int), (0 : Int), (0 : Int))]) =
      sort_by_distance [((0 : Int), (0 : Int), (0 : Int)),
        ((1 : Int), (0 : Int), (0 : Int)), ((5 : Int), (0 : Int), (0 : Int))] :=
  claim_C5_amended (show parse_input (("0,0,0\n1,0,0\n5,0,0").toList) =
    some [((0 : Int), (0 : Int), (0 : Int)), ((1 : Int), (0 : Int), (0 : Int)),
      ((5 : Int), (0 : Int), (0 : Int))] from rfl)

theorem claim_C6_amended_witness :
    _score [((((0 : Int), (0 : Int), (0 : Int)) : Pos), (0 : Nat))] =
      some ((_top_3 [((((0 : Int), (0 : Int), (0 : Int)) : Pos), (0 : Nat))]).prod) :=
  (claim_C6_amended (by decide)).1

theorem claim_C7_witness :
    ∃ c', _connect [((((0 : Int), (0 : Int), (0 : Int)) : Pos), (0 : Nat)),
        ((((1 : Int), (1 : Int), (1 : Int)) : Pos), (0 : Nat))]
        ((0 : Int), (0 : Int), (0 : Int)) ((1 : Int), (1 : Int), (1 : Int)) =
          some c' ∧
      c' = [((((0 : Int), (0 : Int), (0 : Int)) : Pos), (0 : Nat)),
        ((((1 : Int), (1 : Int), (1 : Int)) : Pos), (0 : Nat))] ∧
      counter_values c' = counter_values
        [((((0 : Int), (0 : Int), (0 : Int)) : Pos), (0 : Nat)),
          ((((1 : Int), (1 : Int), (1 : Int)) : Pos), (0 : Nat))] ∧
      numGroups c' = numGroups
        [((((0 : Int), (0 : Int), (0 : Int)) : Pos), (0 : Nat)),
          ((((1 : Int), (1 : Int), (1 : Int)) : Pos), (0 : Nat))] :=
  claim_C7 (by rfl) (by rfl)

theorem claim_C8_witness :
    (counter_values [((((0 : Int), (0 : Int), (0 : Int)) : Pos), (0 : Nat)),
        ((((1 : Int), (0 : Int), (0 : Int)) : Pos), (0 : Nat))]).sum =
      ([((((0 : Int), (0 : Int), (0 : Int)) : Pos), (0 : Nat)),
        ((((1 : Int), (0 : Int), (0 : Int)) : Pos), (0 : Nat))] : Circuits).length ∧
    ([((((0 : Int), (0 : Int), (0 : Int)) : Pos), (0 : Nat)),
        ((((1 : Int), (0 : Int), (0 : Int)) : Pos), (0 : Nat))] : Circuits).length =
      (buildCircuits [((0 : Int), (0 : Int), (0 : Int)),
        ((1 : Int), (0 : Int), (0 : Int))]).length ∧
    (([((((0 : Int), (0 : Int), (0 : Int)) : Pos), (0 : Nat)),
        ((((1 : Int), (0 : Int), (0 : Int)) : Pos), (0 : Nat))] : Circuits).map
      Prod.fst).Nodup ∧
    (∀ p, p ∈ ([((((0 : Int), (0 : Int), (0 : Int)) : Pos), (0 : Nat)),
        ((((1 : Int), (0 : Int), (0 : Int)) : Pos), (0 : Nat))] : Circuits).map
          Prod.fst ↔
      p ∈ [((0 : Int), (0 : Int), (0 : Int)), ((1 : Int), (0 : Int), (0 : Int))]) ∧
    ∀ p l, clookup p [((((0 : Int), (0 : Int), (0 : Int)) : Pos), (0 : Nat)),
        ((((1 : Int), (0 : Int), (0 : Int)) : Pos), (0 : Nat))] = some l →
      (cvalues [((((0 : Int), (0 : Int), (0 : Int)) : Pos), (0 : Nat)),
        ((((1 : Int), (0 : Int), (0 : Int)) : Pos), (0 : Nat))]).dedup.count l = 1 :=
  claim_C8 (show foldConnect (buildCircuits [((0 : Int), (0 : Int), (0 : Int)),
      ((1 : Int), (0 : Int), (0 : Int))])
    [(((0 : Int), (0 : Int), (0 : Int)), ((1 : Int), (0 : Int), (0 : Int)))] =
    some [((((0 : Int), (0 : Int), (0 : Int)) : Pos), (0 : Nat)),
      ((((1 : Int), (0 : Int), (0 : Int)) : Pos), (0 : Nat))] from rfl)

theorem claim_C9_witness :
    numGroups [((((0 : Int), (0 : Int), (0 : Int)) : Pos), (0 : Nat)),
        ((((1 : Int), (0 : Int), (0 : Int)) : Pos), (0 : Nat))] ≤
      numGroups [((((0 : Int), (0 : Int), (0 : Int)) : Pos), (0 : Nat)),
        ((((1 : Int), (0 : Int), (0 : Int)) : Pos), (1 : Nat))] ∧
    (numGroups [((((0 : Int), (0 : Int), (0 : Int)) : Pos), (0 : Nat)),
        ((((1 : Int), (0 : Int), (0 : Int)) : Pos), (0 : Nat))] <
      numGroups [((((0 : Int), (0 : Int), (0 : Int)) : Pos), (0 : Nat)),
        ((((1 : Int), (0 : Int), (0 : Int)) : Pos), (1 : Nat))] ↔ (0 : Nat) ≠ 1) ∧
    ((0 : Nat) ≠ 1 →
      numGroups [((((0 : Int), (0 : Int), (0 : Int)) : Pos), (0 : Nat)),
        ((((1 : Int), (0 : Int), (0 : Int)) : Pos), (0 : Nat))] + 1 =
      numGroups [((((0 : Int), (0 : Int), (0 : Int)) : Pos), (0 : Nat)),
        ((((1 : Int), (0 : Int), (0 : Int)) : Pos), (1 : Nat))]) ∧
    ((0 : Nat) = 1 →
      ([((((0 : Int), (0 : Int), (0 : Int)) : Pos), (0 : Nat)),
        ((((1 : Int), (0 : Int), (0 : Int)) : Pos), (0 : Nat))] : Circuits) =
      [((((0 : Int), (0 : Int), (0 : Int)) : Pos), (0 : Nat)),
        ((((1 : Int), (0 : Int), (0 : Int)) : Pos), (1 : Nat))]) :=
  claim_C9
    (show clookup ((0 : Int), (0 : Int), (0 : Int))
      [((((0 : Int), (0 : Int), (0 : Int)) : Pos), (0 : Nat)),
        ((((1 : Int), (0 : Int), (0 : Int)) : Pos), (1 : Nat))] = some 0 from rfl)
    (show clookup ((1 : Int), (0 : Int), (0 : Int))
      [((((0 : Int), (0 : Int), (0 : Int)) : Pos), (0 : Nat)),
        ((((1 : Int), (0 : Int), (0 : Int)) : Pos), (1 : Nat))] = some 1 from rfl)
    (show _connect [((((0 : Int), (0 : Int), (0 : Int)) : Pos), (0 : Nat)),
        ((((1 : Int), (0 : Int), (0 : Int)) : Pos), (1 : Nat))]
      ((0 : Int), (0 : Int), (0 : Int)) ((1 : Int), (0 : Int), (0 : Int)) =
      some [((((0 : Int), (0 : Int), (0 : Int)) : Pos), (0 : Nat)),
        ((((1 : Int), (0 : Int), (0 : Int)) : Pos), (0 : Nat))] from rfl)

theorem claim_C10_witness :
    parse_input ((" ").toList) = none ∧
    (0 : Nat) < ([((1 : Int), (2 : Int), (3 : Int))] : List Pos).length :=
  ⟨(claim_C10.1 ((" ").toList) (by decide)).2.2.2,
    claim_C10.2 (("1,2,3").toList) [((1 : Int), (2 : Int), (3 : Int))] (by rfl)⟩
